import Mathlib

/-!
Verification of the SwAV training core (`pl_bolts/models/self_supervised/swav/swav_module.py`)
against its natural-language specification.

The embedding works over exact rationals `ℚ` in place of floating point, models tensors as
functions out of `Fin` types, and abstracts transcendental functions (`exp`, `log`, `cos`)
as explicit function parameters where the surrounding algebra does not depend on their values.
-/

namespace SwAVSpec

/-! ## Assignment Engine: `SwAV.distributed_sinkhorn` (and the commented-out `SwAV.sinkhorn`)

`Q` is a `K × B` matrix, modelled as `Fin K → Fin B → ℚ`.  The code runs with no
distributed context (`torch.distributed.is_initialized()` is false), so both
`all_reduce` calls are identities and `num_procs = 1`; we keep `num_procs` as an
explicit parameter of the column target `c = 1 / (num_procs * B)` as the code does. -/

/-- `torch.sum(Q)`: sum of all entries of a `K × B` matrix. -/
def totalSum {K B : ℕ} (Q : Fin K → Fin B → ℚ) : ℚ :=
  ∑ k, ∑ b, Q k b

/-- `torch.sum(Q, dim=1)`: the row sums `u`. -/
def rowSum {K B : ℕ} (Q : Fin K → Fin B → ℚ) (k : Fin K) : ℚ :=
  ∑ b, Q k b

/-- `torch.sum(Q, dim=0)`: the column sums. -/
def colSum {K B : ℕ} (Q : Fin K → Fin B → ℚ) (b : Fin B) : ℚ :=
  ∑ k, Q k b

/-- The row-rescaling half of one Sinkhorn iteration: `Q *= (r / u).unsqueeze(1)`
with `r = 1/K` and `u = torch.sum(Q, dim=1)`. -/
def rowScaled {K B : ℕ} (Q : Fin K → Fin B → ℚ) : Fin K → Fin B → ℚ :=
  fun k b => Q k b * ((1 / (K : ℚ)) / rowSum Q k)

/-- One iteration of the loop in `distributed_sinkhorn`: row rescaling towards
`r = 1/K`, then column rescaling towards `c = 1/(num_procs * B)` using the column
sums of the row-rescaled matrix. -/
def sinkhornIter {K B : ℕ} (numProcs : ℕ) (Q : Fin K → Fin B → ℚ) : Fin K → Fin B → ℚ :=
  fun k b =>
    rowScaled Q k b * ((1 / ((numProcs : ℚ) * (B : ℚ))) / colSum (rowScaled Q) b)

/-- The initial global normalization `Q /= sum_Q`. -/
def sinkhornInit {K B : ℕ} (Q : Fin K → Fin B → ℚ) : Fin K → Fin B → ℚ :=
  fun k b => Q k b / totalSum Q

/-- `SwAV.distributed_sinkhorn(Q, nmb_iters)` run with no distributed context:
normalize by the global sum, iterate `nmb_iters` Sinkhorn steps, then return the
transpose of the matrix divided by its column sums
(`(Q / torch.sum(Q, dim=0, keepdim=True)).t()`). -/
def distributed_sinkhorn {K B : ℕ} (numProcs : ℕ) (Q : Fin K → Fin B → ℚ) (nmbIters : ℕ) :
    Fin B → Fin K → ℚ :=
  fun b k =>
    (sinkhornIter numProcs)^[nmbIters] (sinkhornInit Q) k b /
      colSum ((sinkhornIter numProcs)^[nmbIters] (sinkhornInit Q)) b

/-- One iteration of the loop in the commented-out non-distributed `SwAV.sinkhorn`:
identical to `sinkhornIter` except that the column target is `c = 1/B`. -/
def sinkhornIterLocal {K B : ℕ} (Q : Fin K → Fin B → ℚ) : Fin K → Fin B → ℚ :=
  fun k b =>
    rowScaled Q k b * ((1 / (B : ℚ)) / colSum (rowScaled Q) b)

/-- The commented-out non-distributed `SwAV.sinkhorn(Q, nmb_iters)` (source lines
326–343): same as `distributed_sinkhorn` but with column target `1/B` and no
collective reductions. -/
def sinkhorn {K B : ℕ} (Q : Fin K → Fin B → ℚ) (nmbIters : ℕ) : Fin B → Fin K → ℚ :=
  fun b k =>
    sinkhornIterLocal^[nmbIters] (sinkhornInit Q) k b /
      colSum (sinkhornIterLocal^[nmbIters] (sinkhornInit Q)) b

/-- A concrete strictly positive `2 × 2` input matrix used for counterexamples. -/
def cexQ : Fin 2 → Fin 2 → ℚ :=
  fun k b => ![![1, 2], ![3, 4]] k b

/-! ### Positivity of the Sinkhorn iterates on strictly positive input -/

lemma rowSum_pos {K B : ℕ} (hB : 0 < B) {Q : Fin K → Fin B → ℚ}
    (hQ : ∀ k b, 0 < Q k b) (k : Fin K) : 0 < rowSum Q k := by
  haveI : Nonempty (Fin B) := Fin.pos_iff_nonempty.mp hB
  exact Finset.sum_pos (fun b _ => hQ k b) Finset.univ_nonempty

lemma colSum_pos {K B : ℕ} (hK : 0 < K) {Q : Fin K → Fin B → ℚ}
    (hQ : ∀ k b, 0 < Q k b) (b : Fin B) : 0 < colSum Q b := by
  haveI : Nonempty (Fin K) := Fin.pos_iff_nonempty.mp hK
  exact Finset.sum_pos (fun k _ => hQ k b) Finset.univ_nonempty

lemma totalSum_pos {K B : ℕ} (hK : 0 < K) (hB : 0 < B) {Q : Fin K → Fin B → ℚ}
    (hQ : ∀ k b, 0 < Q k b) : 0 < totalSum Q := by
  haveI : Nonempty (Fin K) := Fin.pos_iff_nonempty.mp hK
  exact Finset.sum_pos (fun k _ => rowSum_pos hB hQ k) Finset.univ_nonempty

lemma rowScaled_pos {K B : ℕ} (hK : 0 < K) (hB : 0 < B) {Q : Fin K → Fin B → ℚ}
    (hQ : ∀ k b, 0 < Q k b) : ∀ k b, 0 < rowScaled Q k b := by
  intro k b
  exact mul_pos (hQ k b)
    (div_pos (one_div_pos.mpr (Nat.cast_pos.mpr hK)) (rowSum_pos hB hQ k))

lemma sinkhornIter_pos {K B : ℕ} (hK : 0 < K) (hB : 0 < B) {numProcs : ℕ}
    (hP : 0 < numProcs) {Q : Fin K → Fin B → ℚ} (hQ : ∀ k b, 0 < Q k b) :
    ∀ k b, 0 < sinkhornIter numProcs Q k b := by
  intro k b
  refine mul_pos (rowScaled_pos hK hB hQ k b) (div_pos ?_ (colSum_pos hK (rowScaled_pos hK hB hQ) b))
  exact one_div_pos.mpr (mul_pos (Nat.cast_pos.mpr hP) (Nat.cast_pos.mpr hB))

lemma sinkhornIter_iterate_pos {K B : ℕ} (hK : 0 < K) (hB : 0 < B) {numProcs : ℕ}
    (hP : 0 < numProcs) {Q : Fin K → Fin B → ℚ} (hQ : ∀ k b, 0 < Q k b) :
    ∀ n k b, 0 < (sinkhornIter numProcs)^[n] Q k b := by
  intro n
  induction n with
  | zero => simpa using hQ
  | succ n ih =>
      intro k b
      rw [Function.iterate_succ_apply']
      exact sinkhornIter_pos hK hB hP ih k b

lemma sinkhornInit_pos {K B : ℕ} (hK : 0 < K) (hB : 0 < B) {Q : Fin K → Fin B → ℚ}
    (hQ : ∀ k b, 0 < Q k b) : ∀ k b, 0 < sinkhornInit Q k b := by
  intro k b
  exact div_pos (hQ k b) (totalSum_pos hK hB hQ)

/-- C1 (counterexample): at the strictly positive input `cexQ = [[1,2],[3,4]]`
(`K = B = 2`) with `N = 1`, some column of the `B × K` output of
`distributed_sinkhorn` does not sum to 1 (column 0 sums to `203/208`). -/
theorem distributed_sinkhorn_cols_counterexample :
    ∃ k : Fin 2, ∑ b : Fin 2, distributed_sinkhorn 1 cexQ 1 b k ≠ 1 := by
  refine ⟨0, ?_⟩
  norm_num [distributed_sinkhorn, sinkhornIter, sinkhornInit, rowScaled, rowSum, colSum,
    totalSum, cexQ, Fin.sum_univ_two, Function.iterate_one,
    Matrix.cons_val_zero, Matrix.cons_val_one, Matrix.head_cons]

/-- C1 (amended): for every strictly positive `K × B` input (`K, B ≥ 1`) and
every iteration count `N ≥ 1`, `distributed_sinkhorn` run with no distributed
context returns a `B × K` matrix each of whose ROWS sums to exactly 1
(equivalently, the columns of the `K × B` matrix before the final transpose sum
to 1); its columns need not sum to 1. -/
theorem distributed_sinkhorn_rows_sum_one {K B : ℕ} (hK : 0 < K) (hB : 0 < B)
    (Q : Fin K → Fin B → ℚ) (hQ : ∀ k b, 0 < Q k b) (N : ℕ) (hN : 1 ≤ N) (b : Fin B) :
    ∑ k, distributed_sinkhorn 1 Q N b k = 1 := by
  have hpos : ∀ k b, 0 < (sinkhornIter 1)^[N] (sinkhornInit Q) k b :=
    sinkhornIter_iterate_pos hK hB Nat.one_pos (sinkhornInit_pos hK hB hQ) N
  have hcol : 0 < colSum ((sinkhornIter 1)^[N] (sinkhornInit Q)) b :=
    colSum_pos hK hpos b
  simp only [distributed_sinkhorn]
  rw [← Finset.sum_div]
  exact div_self (by simpa [colSum] using hcol.ne')

/-- Witness for C1's amended theorem: at `cexQ` with `N = 1`, row 0 of the
output sums to 1. -/
theorem distributed_sinkhorn_rows_sum_one_witness :
    ∑ k, distributed_sinkhorn 1 cexQ 1 (0 : Fin 2) k = 1 :=
  distributed_sinkhorn_rows_sum_one (by decide) (by decide) cexQ (by decide) 1 (by decide) 0

/-- C3: with world size 1 (no distributed context, `num_procs = 1`, both
`all_reduce` calls the identity), `distributed_sinkhorn` computes exactly the
same output as the commented-out non-distributed `sinkhorn`, for every input
matrix and every iteration count: the only textual difference, the column
target `1/(num_procs·B)` versus `1/B`, collapses at `num_procs = 1`. -/
theorem distributed_sinkhorn_eq_sinkhorn {K B : ℕ} (Q : Fin K → Fin B → ℚ) (n : ℕ) :
    distributed_sinkhorn 1 Q n = sinkhorn Q n := by
  have h : (sinkhornIter (K := K) (B := B) 1) = sinkhornIterLocal := by
    funext Q k b
    simp [sinkhornIter, sinkhornIterLocal]
  funext b k
  simp only [distributed_sinkhorn, sinkhorn, h]

/-- C4: the Assignment Engine is scale-invariant: multiplying the input matrix
by any positive scalar `lam` yields the identical output, for every iteration
count `N` including `N = 0` (the initial division by the global sum cancels the
scale, and everything after is a function of the normalized matrix). -/
theorem distributed_sinkhorn_scale_invariant {K B : ℕ} (Q : Fin K → Fin B → ℚ)
    (lam : ℚ) (hlam : 0 < lam) (hQ : ∀ k b, 0 < Q k b) (N : ℕ) :
    distributed_sinkhorn 1 (fun k b => lam * Q k b) N = distributed_sinkhorn 1 Q N := by
  have hts : totalSum (fun k b => lam * Q k b) = lam * totalSum Q := by
    simp [totalSum, Finset.mul_sum]
  have hinit : sinkhornInit (fun k b => lam * Q k b) = sinkhornInit Q := by
    funext k b
    simp only [sinkhornInit, hts]
    exact mul_div_mul_left _ _ hlam.ne'
  funext b k
  simp only [distributed_sinkhorn, hinit]

/-- Witness for C4: doubling `cexQ` leaves the output unchanged (`N = 0`). -/
theorem distributed_sinkhorn_scale_invariant_witness :
    distributed_sinkhorn 1 (fun k b => 2 * cexQ k b) 0 = distributed_sinkhorn 1 cexQ 0 :=
  distributed_sinkhorn_scale_invariant cexQ 2 (by norm_num) (by decide) 0

/-! ## Queue-augmented assignment slicing (`shared_step`, lines 230–242)

When the queue is in use, `out = torch.cat((torch.mm(queue[i], prototypes.t()), out))`
prepends `Bq` queue-similarity rows to the `B` batch rows, and the assignment targets
are `self.get_assignments(torch.exp(out / self.epsilon).t(), iters)[-bs:]`. -/

/-- `torch.cat((A, Cm))` along the row dimension: `Bq` queue rows first, then the
`B` batch rows. -/
def catRows {Bq B K : ℕ} (A : Fin Bq → Fin K → ℚ) (Cm : Fin B → Fin K → ℚ) :
    Fin (Bq + B) → Fin K → ℚ :=
  fun i k =>
    if h : (i : ℕ) < Bq then A ⟨i, h⟩ k else Cm ⟨(i : ℕ) - Bq, by omega⟩ k

/-- `torch.exp(out / epsilon).t()`: the `K × (Bq + B)` matrix fed to the
Assignment Engine, with the exponential abstracted as `fexp`. -/
def crop_assignment_input {Bq B K : ℕ} (fexp : ℚ → ℚ) (epsilon : ℚ)
    (queueSim : Fin Bq → Fin K → ℚ) (out : Fin B → Fin K → ℚ) :
    Fin K → Fin (Bq + B) → ℚ :=
  fun k i => fexp (catRows queueSim out i k / epsilon)

/-- The `[-bs:]` slice in python: rows `(Bq + B) - B` onwards of a `(Bq + B) × K`
tensor. -/
def sliceLastRows {Bq B K : ℕ} (M : Fin (Bq + B) → Fin K → ℚ) : Fin B → Fin K → ℚ :=
  fun j k => M ⟨Bq + B - B + (j : ℕ), by omega⟩ k

/-- `q = self.get_assignments(torch.exp(out / self.epsilon).t(), sinkhorn_iterations)[-bs:]`
for one assignment crop, with `Bq` queue-contributed rows present. -/
def crop_assignments {Bq B K : ℕ} (fexp : ℚ → ℚ) (epsilon : ℚ)
    (queueSim : Fin Bq → Fin K → ℚ) (out : Fin B → Fin K → ℚ) (n : ℕ) :
    Fin B → Fin K → ℚ :=
  sliceLastRows (distributed_sinkhorn 1 (crop_assignment_input fexp epsilon queueSim out) n)

/-- C5: when the queue contributed `Bq` extra rows, the assignment targets
returned to the loss are exactly the last `B` rows of the transposed normalized
assignment — row `j` of the returned matrix is row `Bq + j` of the full
assignment, the row of the concatenation holding the current batch's own sample
`j` (second conjunct); the `Bq` queue rows are discarded. -/
theorem crop_assignments_last_rows {Bq B K : ℕ} (fexp : ℚ → ℚ) (epsilon : ℚ)
    (queueSim : Fin Bq → Fin K → ℚ) (out : Fin B → Fin K → ℚ) (n : ℕ)
    (j : Fin B) (k : Fin K) :
    crop_assignments fexp epsilon queueSim out n j k
      = distributed_sinkhorn 1 (crop_assignment_input fexp epsilon queueSim out) n
          ⟨Bq + (j : ℕ), by omega⟩ k
    ∧ catRows queueSim out ⟨Bq + (j : ℕ), by omega⟩ k = out j k := by
  constructor
  · have hval : Bq + B - B + (j : ℕ) = Bq + (j : ℕ) := by omega
    have hidx : (⟨Bq + B - B + (j : ℕ), by omega⟩ : Fin (Bq + B))
        = ⟨Bq + (j : ℕ), by omega⟩ := Fin.ext hval
    simp only [crop_assignments, sliceLastRows, hidx]
  · have hlt : ¬ (Bq + (j : ℕ) < Bq) := by omega
    simp only [catRows, dif_neg hlt]
    have hval : Bq + (j : ℕ) - Bq = (j : ℕ) := by omega
    have hidx : (⟨Bq + (j : ℕ) - Bq, by omega⟩ : Fin B) = j := Fin.ext hval
    rw [hidx]

/-! ## Feature Queue ring buffer (`shared_step`, lines 236–238)

`self.queue[i, bs:] = self.queue[i, :-bs].clone(); self.queue[i, :bs] = embedding[...]`:
shift everything back by `B` (the oldest `B` rows fall off the far end) and write the
current batch's `B` embeddings into the front slots. -/

/-- One queue update for one assignment-crop slot: entry `j < B` becomes the new
embedding row `j`; entry `j ≥ B` becomes the old entry `j - B`. -/
def queuePush {C d B : ℕ} (q : Fin C → Fin d → ℚ) (emb : Fin B → Fin d → ℚ) :
    Fin C → Fin d → ℚ :=
  fun j x =>
    if h : (j : ℕ) < B then emb ⟨j, h⟩ x else q ⟨(j : ℕ) - B, by omega⟩ x

/-- A sequence of queue updates, oldest first (`foldl`). -/
def pushAll {C d B : ℕ} (q : Fin C → Fin d → ℚ) (es : List (Fin B → Fin d → ℚ)) :
    Fin C → Fin d → ℚ :=
  es.foldl queuePush q

lemma pushAll_old {C d B : ℕ} (es : List (Fin B → Fin d → ℚ)) :
    ∀ (q : Fin C → Fin d → ℚ) (j : Fin C), es.length * B ≤ (j : ℕ) →
      pushAll q es j = q ⟨(j : ℕ) - es.length * B, by omega⟩ := by
  induction es with
  | nil =>
      intro q j h
      simp [pushAll]
  | cons e tl ih =>
      intro q j h
      rw [List.length_cons, Nat.succ_mul] at h
      have h1 : tl.length * B ≤ (j : ℕ) := by omega
      have h2 : pushAll (queuePush q e) tl j = (queuePush q e) ⟨(j : ℕ) - tl.length * B, by omega⟩ :=
        ih (queuePush q e) j h1
      have h3 : ¬ ((j : ℕ) - tl.length * B < B) := by omega
      have hidx : (⟨(j : ℕ) - tl.length * B - B, by omega⟩ : Fin C)
          = ⟨(j : ℕ) - (e :: tl).length * B, by omega⟩ := by
        apply Fin.ext
        show (j : ℕ) - tl.length * B - B = (j : ℕ) - (e :: tl).length * B
        simp only [List.length_cons, add_mul, one_mul]
        omega
      calc pushAll q (e :: tl) j = pushAll (queuePush q e) tl j := rfl
        _ = (queuePush q e) ⟨(j : ℕ) - tl.length * B, by omega⟩ := h2
        _ = q ⟨(j : ℕ) - tl.length * B - B, by omega⟩ := by
              funext x
              simp only [queuePush, dif_neg h3]
        _ = q ⟨(j : ℕ) - (e :: tl).length * B, by omega⟩ := congrArg q hidx

lemma pushAll_evicted {C d B : ℕ} (es : List (Fin B → Fin d → ℚ)) :
    ∀ (q q' : Fin C → Fin d → ℚ) (j : Fin C), (j : ℕ) < es.length * B →
      pushAll q es j = pushAll q' es j := by
  induction es with
  | nil =>
      intro q q' j h
      simp at h
  | cons e tl ih =>
      intro q q' j h
      rw [List.length_cons, Nat.succ_mul] at h
      show pushAll (queuePush q e) tl j = pushAll (queuePush q' e) tl j
      by_cases hj : (j : ℕ) < tl.length * B
      · exact ih _ _ j hj
      · have h1 : tl.length * B ≤ (j : ℕ) := by omega
        have h2 : (j : ℕ) - tl.length * B < B := by omega
        rw [pushAll_old tl _ j h1, pushAll_old tl _ j h1]
        funext x
        simp only [queuePush, dif_pos h2]

/-- C6: per assignment-crop slot, `queuePush` writes the current batch's `B`
embeddings into the front slots (first conjunct) and shifts every existing
entry back by `B`, evicting the oldest `B` entries off the far end (second
conjunct); consequently, after `C / B` insertions into a queue of capacity
`C = (number of insertions) · B`, the result no longer depends on the original
content — it is fully evicted (third conjunct). -/
theorem queue_fifo {C d B : ℕ} (q q' : Fin C → Fin d → ℚ) (emb : Fin B → Fin d → ℚ)
    (es : List (Fin B → Fin d → ℚ)) (hes : es.length * B = C) :
    (∀ (j : Fin C) (h : (j : ℕ) < B), queuePush q emb j = emb ⟨j, h⟩)
    ∧ (∀ (j : Fin C), B ≤ (j : ℕ) → queuePush q emb j = q ⟨(j : ℕ) - B, by omega⟩)
    ∧ pushAll q es = pushAll q' es := by
  refine ⟨?_, ?_, ?_⟩
  · intro j h
    funext x
    simp only [queuePush, dif_pos h]
  · intro j h
    funext x
    simp only [queuePush, dif_neg (by omega : ¬ ((j : ℕ) < B))]
  · funext j x
    have h := pushAll_evicted es q q' j (by rw [hes]; exact j.isLt)
    exact congrFun h x

/-- Witness for C6 at `C = 2`, `B = 1`, two insertions: the result is the same
for two different initial queue contents. -/
theorem queue_fifo_witness :
    pushAll (C := 2) (d := 1) (B := 1) (fun _ _ => (5 : ℚ)) [fun _ _ => (1 : ℚ), fun _ _ => (2 : ℚ)]
      = pushAll (C := 2) (d := 1) (B := 1) (fun _ _ => (7 : ℚ)) [fun _ _ => (1 : ℚ), fun _ _ => (2 : ℚ)] :=
  (queue_fifo (C := 2) (d := 1) (B := 1) (fun _ _ => (5 : ℚ)) (fun _ _ => (7 : ℚ))
    (fun _ _ => (9 : ℚ)) [fun _ _ => (1 : ℚ), fun _ _ => (2 : ℚ)] (by norm_num)).2.2

/-! ## Queue in-use latch (`shared_step` lines 231–235, `on_train_epoch_start` line 193)

Per step, the loop over assignment-crop slots checks
`if self.use_the_queue or not torch.all(self.queue[i, -1, :] == 0)` — when it holds the
latch is set to `True` and the similarity rows are augmented.  `on_train_epoch_start`
resets `self.use_the_queue = False`.  We abstract the per-slot nonzero check as a `Bool`
(one per slot per step); a slot augments exactly when the latch-or-condition holds at
its turn. -/

/-- Process the assignment-crop slots of one step in order: returns the latch
after the step and, per slot, whether that slot augmented its similarity rows
(`self.use_the_queue or not torch.all(self.queue[i, -1, :] == 0)` at its turn). -/
def processSlots (use_q : Bool) : List Bool → Bool × List Bool
  | [] => (use_q, [])
  | c :: cs =>
      ((processSlots (use_q || c) cs).1, (use_q || c) :: (processSlots (use_q || c) cs).2)

/-- The latch value after running a list of steps from latch state `use_q`. -/
def stepsLatch (use_q : Bool) (steps : List (List Bool)) : Bool :=
  steps.foldl (fun l cs => l || cs.any id) use_q

/-- Run the steps of one epoch from latch state `use_q`, collecting each step's
per-slot augmentation flags. -/
def runSteps (use_q : Bool) : List (List Bool) → List (List Bool)
  | [] => []
  | cs :: rest => (processSlots use_q cs).2 :: runSteps (processSlots use_q cs).1 rest

/-- One training epoch: `on_train_epoch_start` resets `self.use_the_queue = False`,
then the epoch's steps run. -/
def epochRun (steps : List (List Bool)) : List (List Bool) :=
  runSteps false steps

lemma processSlots_fst (cs : List Bool) : ∀ l, (processSlots l cs).1 = (l || cs.any id) := by
  induction cs with
  | nil => intro l; simp [processSlots]
  | cons c cs ih => intro l; simp [processSlots, ih, Bool.or_assoc]

lemma processSlots_true (cs : List Bool) :
    processSlots true cs = (true, List.replicate cs.length true) := by
  induction cs with
  | nil => simp [processSlots]
  | cons c cs ih => simp [processSlots, ih, List.replicate_succ]

lemma runSteps_true (steps : List (List Bool)) :
    runSteps true steps = steps.map (fun s => List.replicate s.length true) := by
  induction steps with
  | nil => simp [runSteps]
  | cons cs rest ih => simp [runSteps, processSlots_true, ih]

lemma runSteps_append (a b : List (List Bool)) :
    ∀ l, runSteps l (a ++ b) = runSteps l a ++ runSteps (stepsLatch l a) b := by
  induction a with
  | nil => intro l; simp [runSteps, stepsLatch]
  | cons cs rest ih =>
      intro l
      simp only [List.cons_append, runSteps, processSlots_fst, stepsLatch, List.foldl_cons]
      exact congrArg _ (ih (l || cs.any id))

lemma processSlots_false (cs : List Bool) (h : cs.any id = false) :
    processSlots false cs = (false, List.replicate cs.length false) := by
  induction cs with
  | nil => simp [processSlots]
  | cons c cs ih =>
      simp only [List.any_cons, id_eq, Bool.or_eq_false_iff] at h
      simp [processSlots, h.1, ih h.2, List.replicate_succ]

lemma runSteps_false (steps : List (List Bool)) (h : ∀ s ∈ steps, s.any id = false) :
    runSteps false steps = steps.map (fun s => List.replicate s.length false) := by
  induction steps with
  | nil => simp [runSteps]
  | cons cs rest ih =>
      have h1 := h cs (List.mem_cons_self cs rest)
      simp [runSteps, processSlots_false cs h1, ih (fun s hs => h s (List.mem_cons_of_mem cs hs))]

/-- C7: the queue in-use latch is one-way within an epoch.  If at some step of
the epoch the latch is already set (`stepsLatch false pre`) or some slot's
oldest-row-nonzero condition holds, then every slot of every subsequent step of
the epoch augments (flag `true`), whatever the later conditions are.  The
latch is reset only at epoch start (`epochRun` starts from `false`): an epoch
whose conditions never hold augments nothing, regardless of any previous
epoch's latch (second conjunct). -/
theorem queue_latch_one_way (pre post : List (List Bool)) (cs : List Bool)
    (h : (stepsLatch false pre || cs.any id) = true) :
    epochRun (pre ++ cs :: post)
      = epochRun pre ++ (processSlots (stepsLatch false pre) cs).2
          :: post.map (fun s => List.replicate s.length true)
    ∧ ∀ steps : List (List Bool), (∀ s ∈ steps, s.any id = false) →
        epochRun steps = steps.map (fun s => List.replicate s.length false) := by
  constructor
  · rw [epochRun, runSteps_append]
    simp only [runSteps, processSlots_fst, h, runSteps_true]
    rfl
  · intro steps hsteps
    exact runSteps_false steps hsteps

/-- Witness for C7: one epoch whose second step triggers the latch; both later
steps have all conditions false, yet every later slot augments. -/
theorem queue_latch_one_way_witness :
    epochRun ([[false]] ++ [true] :: [[false], [false]])
      = epochRun [[false]] ++ (processSlots (stepsLatch false [[false]]) [true]).2
          :: [[false], [false]].map (fun s => List.replicate s.length true) :=
  (queue_latch_one_way [[false]] [[false], [false]] [true] (by decide)).1

/-! ## LR Schedule Generator (`SwAV.init_lr_schedule`, lines 163–175)

`np.linspace(start_lr, learning_rate, nb·warmup_epochs)` concatenated with the cosine
decay `final_lr + 0.5·(learning_rate − final_lr)·(1 + cos(π·t/T))` for
`t = 0, …, T−1`, `T = nb·(max_epochs − warmup_epochs)`.  `cos(π·x)` is abstracted as
`rcospi x`; `np.arange` of a negative count is empty, which truncated `ℕ`
subtraction models exactly. -/

/-- `np.linspace(a, b, num)` (endpoint included): `a + (b − a)·i/(num − 1)` for
`i = 0, …, num−1`; for `num = 1` the division is by zero, which in `ℚ` yields `a`,
matching numpy's singleton `[a]`. -/
def linspace (a b : ℚ) (num : ℕ) : List ℚ :=
  (List.range num).map fun (i : ℕ) => a + (b - a) * (i : ℚ) / ((num : ℚ) - 1)

/-- The cosine-decay half of the schedule, with `rcospi x` standing for `cos(π·x)`. -/
def cosine_lr_schedule (rcospi : ℚ → ℚ) (learning_rate final_lr : ℚ) (T : ℕ) : List ℚ :=
  (List.range T).map fun (t : ℕ) =>
    final_lr + 1 / 2 * (learning_rate - final_lr) * (1 + rcospi ((t : ℚ) / (T : ℚ)))

/-- `SwAV.init_lr_schedule`: linear warmup over `nb · warmup_epochs` steps
concatenated with cosine decay over `nb · (max_epochs − warmup_epochs)` steps,
where `nb` is `self.trainer.num_training_batches`. -/
def init_lr_schedule (rcospi : ℚ → ℚ) (start_lr learning_rate final_lr : ℚ)
    (nb warmup_epochs max_epochs : ℕ) : List ℚ :=
  linspace start_lr learning_rate (nb * warmup_epochs)
    ++ cosine_lr_schedule rcospi learning_rate final_lr (nb * (max_epochs - warmup_epochs))

lemma linspace_length (a b : ℚ) (num : ℕ) : (linspace a b num).length = num := by
  simp only [linspace, List.length_map, List.length_range]

lemma linspace_getD (a b : ℚ) {num i : ℕ} (h : i < num) (d : ℚ) :
    (linspace a b num).getD i d = a + (b - a) * (i : ℚ) / ((num : ℚ) - 1) := by
  rw [linspace, List.getD_eq_getElem?_getD, List.getElem?_map, List.getElem?_range h,
    Option.map_some', Option.getD_some]

lemma cosine_getD (rcospi : ℚ → ℚ) (lr f : ℚ) {T t : ℕ} (h : t < T) (d : ℚ) :
    (cosine_lr_schedule rcospi lr f T).getD t d
      = f + 1 / 2 * (lr - f) * (1 + rcospi ((t : ℚ) / (T : ℚ))) := by
  rw [cosine_lr_schedule, List.getD_eq_getElem?_getD, List.getElem?_map, List.getElem?_range h,
    Option.map_some', Option.getD_some]

lemma init_lr_schedule_getD_left (rcospi : ℚ → ℚ) (s lr f : ℚ) (nb w M : ℕ) {i : ℕ}
    (h : i < nb * w) (d : ℚ) :
    (init_lr_schedule rcospi s lr f nb w M).getD i d = (linspace s lr (nb * w)).getD i d := by
  rw [init_lr_schedule, List.getD_eq_getElem?_getD,
    List.getElem?_append_left (by simpa [linspace_length] using h), ← List.getD_eq_getElem?_getD]

lemma init_lr_schedule_getD_right (rcospi : ℚ → ℚ) (s lr f : ℚ) (nb w M : ℕ) (i : ℕ) (d : ℚ) :
    (init_lr_schedule rcospi s lr f nb w M).getD (nb * w + i) d
      = (cosine_lr_schedule rcospi lr f (nb * (M - w))).getD i d := by
  rw [init_lr_schedule, List.getD_eq_getElem?_getD,
    List.getElem?_append_right (by simp [linspace_length]), ← List.getD_eq_getElem?_getD]
  simp [linspace_length]

/-- C8: the generated LR curve has length
`(warmup_epochs + (max_epochs − warmup_epochs)) · nb` (steps-per-epoch `nb`); when
the warmup part has at least one step, its first value is `start_lr`; when the
decay part has at least one step, the value at the warmup boundary (index
`nb · warmup_epochs`) is exactly `learning_rate` (using `cos 0 = 1`); and the
last value is `final_lr + ½(learning_rate − final_lr)(1 + cos(π(T−1)/T))`, which
approaches `final_lr`: whenever `cos(π(T−1)/T)` is within `δ` of `−1`, the last
value is within `|learning_rate − final_lr|·δ/2` of `final_lr` (it need not equal
`final_lr`). -/
theorem init_lr_schedule_spec (rcospi : ℚ → ℚ) (start_lr lr final_lr : ℚ)
    (nb w M : ℕ) (hcos0 : rcospi 0 = 1) :
    (init_lr_schedule rcospi start_lr lr final_lr nb w M).length = (w + (M - w)) * nb
    ∧ (0 < nb * w →
        (init_lr_schedule rcospi start_lr lr final_lr nb w M).getD 0 0 = start_lr)
    ∧ (0 < nb * (M - w) →
        (init_lr_schedule rcospi start_lr lr final_lr nb w M).getD (nb * w) 0 = lr)
    ∧ (0 < nb * (M - w) →
        (init_lr_schedule rcospi start_lr lr final_lr nb w M).getD
            (nb * w + (nb * (M - w) - 1)) 0
          = final_lr + 1 / 2 * (lr - final_lr)
              * (1 + rcospi (((nb * (M - w) - 1 : ℕ) : ℚ) / ((nb * (M - w) : ℕ) : ℚ))))
    ∧ (∀ δ : ℚ, 0 < nb * (M - w) →
        |1 + rcospi (((nb * (M - w) - 1 : ℕ) : ℚ) / ((nb * (M - w) : ℕ) : ℚ))| ≤ δ →
        |(init_lr_schedule rcospi start_lr lr final_lr nb w M).getD
            (nb * w + (nb * (M - w) - 1)) 0 - final_lr|
          ≤ |lr - final_lr| * δ / 2) := by
  have hlast : 0 < nb * (M - w) →
      (init_lr_schedule rcospi start_lr lr final_lr nb w M).getD
          (nb * w + (nb * (M - w) - 1)) 0
        = final_lr + 1 / 2 * (lr - final_lr)
            * (1 + rcospi (((nb * (M - w) - 1 : ℕ) : ℚ) / ((nb * (M - w) : ℕ) : ℚ))) := by
    intro h
    rw [init_lr_schedule_getD_right, cosine_getD rcospi lr final_lr (by omega)]
  refine ⟨?_, ?_, ?_, hlast, ?_⟩
  · simp only [init_lr_schedule, List.length_append, linspace_length, cosine_lr_schedule,
      List.length_map, List.length_range]
    ring
  · intro h
    rw [init_lr_schedule_getD_left rcospi start_lr lr final_lr nb w M h,
      linspace_getD start_lr lr h]
    norm_num
  · intro h
    have h0 : (init_lr_schedule rcospi start_lr lr final_lr nb w M).getD (nb * w) 0
        = (cosine_lr_schedule rcospi lr final_lr (nb * (M - w))).getD 0 0 := by
      simpa using init_lr_schedule_getD_right rcospi start_lr lr final_lr nb w M 0 0
    rw [h0, cosine_getD rcospi lr final_lr h, Nat.cast_zero, zero_div, hcos0]
    ring
  · intro δ h hδ
    rw [hlast h]
    have habs : final_lr + 1 / 2 * (lr - final_lr)
          * (1 + rcospi (((nb * (M - w) - 1 : ℕ) : ℚ) / ((nb * (M - w) : ℕ) : ℚ))) - final_lr
        = (lr - final_lr)
          * (1 + rcospi (((nb * (M - w) - 1 : ℕ) : ℚ) / ((nb * (M - w) : ℕ) : ℚ))) / 2 := by
      ring
    rw [habs, abs_div, abs_mul]
    have h2 : |(2 : ℚ)| = 2 := by norm_num
    rw [h2]
    gcongr

/-- Witness for C8 at `rcospi = const 1`, `start_lr = 0`, `lr = 1`, `final_lr = 0`,
`nb = 2`, `warmup_epochs = 1`, `max_epochs = 3`: the curve has the claimed length. -/
theorem init_lr_schedule_spec_witness :
    (init_lr_schedule (fun _ => 1) 0 1 0 2 1 3).length = (1 + (3 - 1)) * 2 :=
  (init_lr_schedule_spec (fun _ => 1) 0 1 0 2 1 3 rfl).1

/-! ## Prototype Gradient Gate (`SwAV.on_after_backward`, lines 199–203)

`if self.current_epoch < self.freeze_prototypes_epochs: for name, p in
self.model.named_parameters(): if "prototypes" in name: p.grad = None`.
Parameters are modelled as pairs of a name and an optional gradient. -/

/-- Python's substring test `pat in s`. -/
def strContains (s pat : String) : Bool :=
  (List.range (s.toList.length + 1)).any fun i => pat.toList.isPrefixOf (s.toList.drop i)

/-- `SwAV.on_after_backward`: while the current epoch is below
`freeze_prototypes_epochs`, discard (set to `none`) the gradient of every
parameter whose name contains `"prototypes"`; otherwise do nothing. -/
def on_after_backward (current_epoch freeze_prototypes_epochs : ℕ)
    (params : List (String × Option ℚ)) : List (String × Option ℚ) :=
  if current_epoch < freeze_prototypes_epochs then
    params.map fun p => if strContains p.1 "prototypes" then (p.1, none) else p
  else params

/-- C9: while `current_epoch < freeze_prototypes_epochs`, after a backward pass
every parameter whose name contains `"prototypes"` has its gradient discarded
(set to absent) and every other parameter is left unchanged, names and list
length included; at epochs at or above the threshold nothing is modified. -/
theorem on_after_backward_spec (e f : ℕ) (params : List (String × Option ℚ)) :
    ((on_after_backward e f params).length = params.length)
    ∧ (e < f → ∀ i, i < params.length →
        (on_after_backward e f params).getD i ("", none)
          = (if strContains (params.getD i ("", none)).1 "prototypes"
             then ((params.getD i ("", none)).1, (none : Option ℚ))
             else params.getD i ("", none)))
    ∧ (f ≤ e → on_after_backward e f params = params) := by
  refine ⟨?_, ?_, ?_⟩
  · by_cases h : e < f <;> simp [on_after_backward, h]
  · intro h i hi
    have hp : params[i]? = some (params.get ⟨i, hi⟩) := List.getElem?_eq_getElem hi
    rw [on_after_backward, if_pos h, List.getD_eq_getElem?_getD, List.getElem?_map,
      List.getD_eq_getElem?_getD, hp]
    by_cases hc : strContains (params.get ⟨i, hi⟩).1 "prototypes" <;>
      simp [hc]
  · intro h
    simp [on_after_backward, Nat.not_lt.mpr h]

/-- Witness for C9: at epoch 0 with a freeze threshold of 1, the prototype
parameter's gradient is discarded while the other parameter keeps its gradient. -/
theorem on_after_backward_spec_witness :
    (on_after_backward 0 1
        [("module.prototypes.weight", (some 1 : Option ℚ)), ("encoder.conv1.weight", some 2)]).getD
        0 ("", none)
      = ("module.prototypes.weight", none) := by
  have h := (on_after_backward_spec 0 1
    [("module.prototypes.weight", (some 1 : Option ℚ)), ("encoder.conv1.weight", some 2)]).2.1
    (by decide) 0 (by decide)
  rw [h]
  decide

/-! ## Loss Aggregator (`shared_step`, lines 244–251)

For each assignment crop `crop_id` (index `i` in `crops_for_assign`), the code loops
`for v in np.delete(np.arange(np.sum(self.nmb_crops)), crop_id)`, accumulating
`subloss -= torch.mean(torch.sum(q * torch.log(p), dim=1))` with
`p = softmax(output[bs*v : bs*(v+1)] / temperature)`, then
`loss += subloss / (np.sum(self.nmb_crops) - 1)` and finally
`loss /= len(self.crops_for_assign)`.  The concatenated crop logits `output` are
modelled as a `ℕ`-indexed family of rows; `exp` and `log` are abstracted as
`fexp` / `flog`; the assignment targets `q` are a parameter (they are produced
upstream by `crop_assignments`). -/

/-- `nn.Softmax(dim=1)` on one row, with `exp` abstracted as `fexp`. -/
def softmaxRow {K : ℕ} (fexp : ℚ → ℚ) (x : Fin K → ℚ) (k : Fin K) : ℚ :=
  fexp (x k) / ∑ j, fexp (x j)

/-- `torch.mean(torch.sum(q * torch.log(p), dim=1))` where
`p = softmax(output[bs*v : bs*(v+1)] / temperature)`: sum over the cluster
dimension, mean over the `B` samples. -/
def cropTerm {B K : ℕ} (flog fexp : ℚ → ℚ) (output : ℕ → Fin K → ℚ) (temperature : ℚ)
    (v : ℕ) (q : Fin B → Fin K → ℚ) : ℚ :=
  (∑ b : Fin B, ∑ k, q b k
      * flog (softmaxRow fexp (fun j => output (B * v + (b : ℕ)) j / temperature) k))
    / (B : ℚ)

/-- The inner loop of `shared_step`: `subloss -= ...` over
`np.delete(np.arange(V), crop_id)` (deletion by position from `[0, …, V−1]`),
starting from `subloss = 0`. -/
def swav_subloss (flog fexp : ℚ → ℚ) {B K : ℕ} (output : ℕ → Fin K → ℚ)
    (temperature : ℚ) (V crop_id : ℕ) (q : Fin B → Fin K → ℚ) : ℚ :=
  ((List.range V).eraseIdx crop_id).foldl
    (fun acc v => acc - cropTerm flog fexp output temperature v q) 0

/-- The outer loop of `shared_step`: `loss += subloss / (np.sum(nmb_crops) - 1)`
over `enumerate(crops_for_assign)`, then `loss /= len(crops_for_assign)`. -/
def shared_step_loss (flog fexp : ℚ → ℚ) {B K : ℕ} (output : ℕ → Fin K → ℚ)
    (temperature : ℚ) (nmb_crops crops_for_assign : List ℕ)
    (q : ℕ → Fin B → Fin K → ℚ) : ℚ :=
  (crops_for_assign.enum.foldl
      (fun acc p =>
        acc + swav_subloss flog fexp output temperature nmb_crops.sum p.2 (q p.1)
            / ((nmb_crops.sum : ℚ) - 1))
      0)
    / (crops_for_assign.length : ℚ)

/-- The spec's formula for one assignment crop: the sum, over every other crop
`v ≠ crop_id` of the full crop set, of the negative mean of
`(assignment ⊙ log softmax(logits_v / temperature))` summed over the cluster
dimension, divided by `(total crop count − 1)`. -/
def spec_crop_loss (flog fexp : ℚ → ℚ) {B K : ℕ} (output : ℕ → Fin K → ℚ)
    (temperature : ℚ) (V crop_id : ℕ) (q : Fin B → Fin K → ℚ) : ℚ :=
  (((List.range V).filter fun v => v ≠ crop_id).map
      fun v => -(cropTerm flog fexp output temperature v q)).sum
    / ((V : ℚ) - 1)

/-- The spec's final loss: the average of the per-assignment-crop sublosses over
the number of assignment crops. -/
def spec_loss (flog fexp : ℚ → ℚ) {B K : ℕ} (output : ℕ → Fin K → ℚ)
    (temperature : ℚ) (nmb_crops crops_for_assign : List ℕ)
    (q : ℕ → Fin B → Fin K → ℚ) : ℚ :=
  (crops_for_assign.enum.map
      fun p => spec_crop_loss flog fexp output temperature nmb_crops.sum p.2 (q p.1)).sum
    / (crops_for_assign.length : ℚ)

lemma foldl_sub_eq {α : Type} (f : α → ℚ) (l : List α) :
    ∀ a : ℚ, l.foldl (fun acc v => acc - f v) a = a - (l.map f).sum := by
  induction l with
  | nil => intro a; simp
  | cons x xs ih =>
      intro a
      rw [List.foldl_cons, ih, List.map_cons, List.sum_cons]
      ring

lemma foldl_add_eq {α : Type} (f : α → ℚ) (l : List α) :
    ∀ a : ℚ, l.foldl (fun acc v => acc + f v) a = a + (l.map f).sum := by
  induction l with
  | nil => intro a; simp
  | cons x xs ih =>
      intro a
      rw [List.foldl_cons, ih, List.map_cons, List.sum_cons]
      ring

lemma sum_map_neg {α : Type} (f : α → ℚ) (l : List α) :
    (l.map fun v => -(f v)).sum = -((l.map f).sum) := by
  induction l with
  | nil => simp
  | cons x xs ih =>
      rw [List.map_cons, List.sum_cons, ih, List.map_cons, List.sum_cons]
      ring

lemma range'_eraseIdx : ∀ (n s c : ℕ), c < n →
    (List.range' s n).eraseIdx c = (List.range' s n).filter fun v => v ≠ s + c := by
  intro n
  induction n with
  | zero => intro s c h; omega
  | succ n ih =>
      intro s c h
      rw [List.range'_succ]
      match c with
      | 0 =>
          rw [List.eraseIdx_cons_zero, List.filter_cons]
          have hs : decide (s ≠ s + 0) = false := by simp
          rw [hs]
          have hall : ∀ x ∈ List.range' (s + 1) n, decide (x ≠ s + 0) = true := by
            intro x hx
            have hmem := List.mem_range'_1.mp hx
            simp only [decide_eq_true_eq]
            omega
          rw [List.filter_eq_self.mpr hall]
          simp
      | c + 1 =>
          rw [List.eraseIdx_cons_succ, List.filter_cons]
          have hs : decide (s ≠ s + (c + 1)) = true := by
            simp only [decide_eq_true_eq]
            omega
          rw [hs, if_pos rfl]
          have hidx : s + 1 + c = s + (c + 1) := by omega
          rw [ih (s + 1) c (by omega), hidx]

lemma range_eraseIdx (V c : ℕ) (h : c < V) :
    (List.range V).eraseIdx c = (List.range V).filter fun v => v ≠ c := by
  have h0 := range'_eraseIdx V 0 c h
  rwa [← List.range_eq_range', Nat.zero_add] at h0

/-- C2: the loss computed by `shared_step` equals the spec's formula: for each
assignment crop, the sum over every other crop `v ≠ crop_id` (assignment and
non-assignment crops alike) of the negative mean over samples of the sum over
the cluster dimension of `assignment ⊙ log softmax(logits_v / temperature)`,
divided by `(total crop count − 1)`; the final loss is the average of these
sublosses over the number of assignment crops. -/
theorem shared_step_loss_spec (flog fexp : ℚ → ℚ) {B K : ℕ} (output : ℕ → Fin K → ℚ)
    (temperature : ℚ) (nmb_crops crops_for_assign : List ℕ)
    (q : ℕ → Fin B → Fin K → ℚ)
    (hc : ∀ c ∈ crops_for_assign, c < nmb_crops.sum) :
    shared_step_loss flog fexp output temperature nmb_crops crops_for_assign q
      = spec_loss flog fexp output temperature nmb_crops crops_for_assign q := by
  rw [shared_step_loss, spec_loss, foldl_add_eq, zero_add]
  congr 1
  congr 1
  apply List.map_congr_left
  intro p hp
  have h2 : p.2 < nmb_crops.sum := hc p.2 (List.snd_mem_of_mem_enum hp)
  rw [swav_subloss, spec_crop_loss, foldl_sub_eq, zero_sub, range_eraseIdx _ _ h2, sum_map_neg]

/-- Witness for C2 at `flog = fexp = id`, `B = K = 1`, zero logits, unit
temperature and targets, `nmb_crops = [2, 1]`, `crops_for_assign = [0, 1]`. -/
theorem shared_step_loss_spec_witness :
    shared_step_loss (B := 1) (K := 1) id id (fun _ _ => 0) 1 [2, 1] [0, 1]
        (fun _ _ _ => 1)
      = spec_loss (B := 1) (K := 1) id id (fun _ _ => 0) 1 [2, 1] [0, 1]
        (fun _ _ _ => 1) :=
  shared_step_loss_spec id id (fun _ _ => 0) 1 [2, 1] [0, 1] (fun _ _ _ => 1) (by decide)

/-! ## Validation runs the shared step and mutates training state
(`validation_step` lines 264–268, `shared_step` lines 213–217 and 230–238)

`validation_step` calls `self.shared_step(batch)`, which (1) re-normalizes
`self.model.prototypes.weight` in place, (2) when the queue is allocated, checks each
slot's oldest row and possibly sets `self.use_the_queue`, and (3) shifts the batch's
embeddings into each slot's queue.  The persistent state is modelled as a record;
the L2 row normalization is abstracted as `normRow` and the per-slot embeddings as
`emb`.  Queue capacity is `Cq + 1` (a queue is only ever allocated with positive
capacity), so its oldest row is `Fin.last Cq`. -/

structure SwavState (K d S Cq : ℕ) where
  protoW : Fin K → Fin d → ℚ
  queue : Option (Fin S → Fin (Cq + 1) → Fin d → ℚ)
  use_the_queue : Bool

/-- The loop over assignment-crop slots: for each slot `i`, first the latch check
on the current queue's oldest row (`self.use_the_queue or not
torch.all(self.queue[i, -1, :] == 0)`), then the queue shift-and-write for that
slot. -/
def slotFold {S Cq d B : ℕ} (emb : Fin S → Fin B → Fin d → ℚ)
    (init : Bool × (Fin S → Fin (Cq + 1) → Fin d → ℚ)) (l : List (Fin S)) :
    Bool × (Fin S → Fin (Cq + 1) → Fin d → ℚ) :=
  l.foldl
    (fun p i =>
      (p.1 || !(decide (∀ x, p.2 i (Fin.last Cq) x = 0)),
       Function.update p.2 i (queuePush (p.2 i) (emb i))))
    init

/-- The persistent-state effect of `SwAV.shared_step`: normalize the prototype
rows in place, then run the slot loop over all assignment-crop slots (when the
queue is allocated). -/
def shared_step_state {K d S Cq B : ℕ} (normRow : (Fin d → ℚ) → Fin d → ℚ)
    (emb : Fin S → Fin B → Fin d → ℚ) (σ : SwavState K d S Cq) : SwavState K d S Cq :=
  match σ.queue with
  | none => ⟨fun k => normRow (σ.protoW k), none, σ.use_the_queue⟩
  | some qu =>
      ⟨fun k => normRow (σ.protoW k),
       some (slotFold emb (σ.use_the_queue, qu) (List.finRange S)).2,
       (slotFold emb (σ.use_the_queue, qu) (List.finRange S)).1⟩

/-- `SwAV.validation_step` calls `self.shared_step(batch)` (then only logs). -/
def validation_step_state {K d S Cq B : ℕ} (normRow : (Fin d → ℚ) → Fin d → ℚ)
    (emb : Fin S → Fin B → Fin d → ℚ) (σ : SwavState K d S Cq) : SwavState K d S Cq :=
  shared_step_state normRow emb σ

/-- `SwAV.training_step` calls `self.shared_step(batch)` (then logs). -/
def training_step_state {K d S Cq B : ℕ} (normRow : (Fin d → ℚ) → Fin d → ℚ)
    (emb : Fin S → Fin B → Fin d → ℚ) (σ : SwavState K d S Cq) : SwavState K d S Cq :=
  shared_step_state normRow emb σ

lemma any_congr {α : Type} (l : List α) (p q : α → Bool) (h : ∀ a ∈ l, p a = q a) :
    l.any p = l.any q := by
  induction l with
  | nil => rfl
  | cons x xs ih =>
      rw [List.any_cons, List.any_cons, h x (List.mem_cons_self x xs),
        ih fun a ha => h a (List.mem_cons_of_mem x ha)]

lemma slotFold_spec {S Cq d B : ℕ} (emb : Fin S → Fin B → Fin d → ℚ) :
    ∀ (l : List (Fin S)), l.Nodup →
      ∀ (b : Bool) (f : Fin S → Fin (Cq + 1) → Fin d → ℚ),
      slotFold emb (b, f) l
        = (b || l.any fun i => !(decide (∀ x, f i (Fin.last Cq) x = 0)),
           fun j => if j ∈ l then queuePush (f j) (emb j) else f j) := by
  intro l
  induction l with
  | nil =>
      intro _ b f
      simp [slotFold]
  | cons i tl ih =>
      intro hnd b f
      obtain ⟨hi, htl⟩ := List.nodup_cons.mp hnd
      have hstep : slotFold emb (b, f) (i :: tl)
          = slotFold emb
              (b || !(decide (∀ x, f i (Fin.last Cq) x = 0)),
               Function.update f i (queuePush (f i) (emb i))) tl := rfl
      rw [hstep, ih htl]
      rw [Prod.mk.injEq]
      constructor
      · rw [List.any_cons, ← Bool.or_assoc]
        congr 1
        apply any_congr
        intro j hj
        have hji : j ≠ i := fun hji => hi (hji ▸ hj)
        rw [Function.update_noteq hji]
      · funext j
        by_cases hjtl : j ∈ tl
        · have hji : j ≠ i := fun hji => hi (hji ▸ hjtl)
          rw [if_pos hjtl, if_pos (List.mem_cons_of_mem i hjtl),
            Function.update_noteq hji]
        · by_cases hji : j = i
          · subst hji
            rw [if_neg hjtl, if_pos (List.mem_cons_self j tl), Function.update_same]
          · rw [if_neg hjtl, if_neg (by simp [hji, hjtl]), Function.update_noteq hji]

/-- C10: a validation step runs exactly the same shared step as a training step,
and that shared step mutates the persistent training state: the prototype rows
are re-normalized in place; when the queue is allocated, every slot's queue is
shifted by the batch and the batch embeddings written into the front, and the
epoch-scoped in-use latch becomes the old latch OR-ed with the per-slot
oldest-row-nonzero conditions.  Validation is not side-effect-free: a concrete
state whose queue changes under `validation_step` exists (last conjunct). -/
theorem validation_step_mutates {K d S Cq B : ℕ}
    (normRow : (Fin d → ℚ) → Fin d → ℚ) (emb : Fin S → Fin B → Fin d → ℚ)
    (σ : SwavState K d S Cq) :
    (validation_step_state normRow emb σ = shared_step_state normRow emb σ
      ∧ validation_step_state normRow emb σ = training_step_state normRow emb σ)
    ∧ (validation_step_state normRow emb σ).protoW = (fun k => normRow (σ.protoW k))
    ∧ (∀ qu, σ.queue = some qu →
        (validation_step_state normRow emb σ).queue
            = some (fun i => queuePush (qu i) (emb i))
          ∧ (validation_step_state normRow emb σ).use_the_queue
            = (σ.use_the_queue
                || (List.finRange S).any fun i => !(decide (∀ x, qu i (Fin.last Cq) x = 0))))
    ∧ (∃ τ : SwavState 1 1 1 0, ∃ e : Fin 1 → Fin 1 → Fin 1 → ℚ,
        (validation_step_state (fun r => r) e τ).queue ≠ τ.queue) := by
  refine ⟨⟨rfl, rfl⟩, ?_, ?_, ?_⟩
  · cases hq : σ.queue <;> simp [validation_step_state, shared_step_state, hq]
  · intro qu hqu
    have hsf := slotFold_spec emb (List.finRange S) (List.nodup_finRange S)
      σ.use_the_queue qu
    constructor
    · simp only [validation_step_state, shared_step_state, hqu, hsf]
      congr 1
      funext j x
      simp [List.mem_finRange]
    · simp only [validation_step_state, shared_step_state, hqu, hsf]
  · refine ⟨⟨fun _ _ => 0, some fun _ _ _ => 0, false⟩, fun _ _ _ => 1, ?_⟩
    decide

end SwAVSpec
